import Mathlib

/-!
Verification of the proglog storage engine (store and segment layers).

The Go source under `internal/log` is shallowly embedded: byte slices
become `List Nat`, `uint64`/`uint32` arithmetic is `Nat` with explicit
`% 2 ^ 64` / `% 2 ^ 32` where the machine width matters, fallible
operations return `Option`, and the mutable receiver is threaded as
explicit state.  The index component (`index.go`) is not among the
sources, so it is modelled from the specification's call contract; every
definition doing so says it in its doc comment.
-/

/-- 2^64, the modulus of Go `uint64` arithmetic. -/
def w64 : Nat := 2 ^ 64

/-- 2^32, the modulus of Go `uint32` arithmetic. -/
def w32 : Nat := 2 ^ 32

/-- Number of bytes used to store a record's length (`lenWidth` in store.go). -/
def lenWidth : Nat := 8

/-- Big-endian base-256 digits of `v`, `n` bytes wide; `putBE 8 v` is what
`binary.Write(buf, binary.BigEndian, v)` emits for a `uint64`. -/
def putBE : Nat → Nat → List Nat
  | 0, _ => []
  | n + 1, v => v / 256 ^ n % 256 :: putBE n v

/-- Big-endian decoding of a byte list, as `binary.BigEndian.Uint64` does
for an 8-byte slice. -/
def toUint64 (bs : List Nat) : Nat := bs.foldl (fun a b => a * 256 + b) 0

/-- Reinterpret a `uint64` bit pattern as Go's `int64` (the `int64(x)`
conversion). -/
def toInt64 (v : Nat) : Int :=
  if v % w64 < 2 ^ 63 then ((v % w64 : Nat) : Int) else ((v % w64 : Nat) : Int) - (w64 : Int)

/-- Go `uint64` subtraction `a - b` (wraps modulo 2^64). -/
def sub64 (a b : Nat) : Nat := (a % w64 + (w64 - b % w64)) % w64

/-- `os.File.ReadAt(b, off)`: reads exactly `n` bytes starting at byte
`off`; errors (returns `none`) when `off` is negative or the file ends
before `off + n`. -/
def fileReadAt (file : List Nat) (off : Int) (n : Nat) : Option (List Nat) :=
  if 0 ≤ off ∧ off.toNat + n ≤ file.length then some ((file.drop off.toNat).take n) else none

/-- The `store` struct of store.go: the file's flushed bytes, the bytes
still sitting in the `bufio.Writer`, and the `size` field. -/
structure Store where
  file : List Nat
  buf : List Nat
  size : Nat
deriving DecidableEq

/-- The store invariant of the spec: `size` equals the flushed file
length plus the bytes currently held in the write buffer. -/
def StoreWF (s : Store) : Prop := s.size = s.file.length + s.buf.length

/-- `newStore(f)`: stats the file and adopts its length as `size`; the
fresh `bufio.Writer` holds no bytes. -/
def newStore (f : List Nat) : Store := ⟨f, [], f.length⟩

/-- Fault model for the two buffered writes inside `store.Append`: each
write either succeeds, or fails leaving the file and buffer in an
arbitrary state chosen by the environment (a flush to the OS may have
moved or dropped bytes). -/
structure AppendEnv where
  failLen : Bool
  fileOnFailLen : List Nat
  bufOnFailLen : List Nat
  failPayload : Bool
  fileOnFailPayload : List Nat
  bufOnFailPayload : List Nat
deriving DecidableEq

/-- The fault-free environment: both buffered writes succeed. -/
def envOk : AppendEnv := ⟨false, [], [], false, [], []⟩

/-- `store.Append(p)`: records `pos = s.size`, buffers the 8-byte
big-endian length of `p` and then `p` itself, sets
`s.size += uint64(len(p) + lenWidth)` and returns
`(uint64(len(p) + lenWidth), pos)`.  Both error returns happen before
the `size` update. -/
def storeAppend (env : AppendEnv) (s : Store) (p : List Nat) : Store × Option (Nat × Nat) :=
  let pos := s.size
  if env.failLen then
    (⟨env.fileOnFailLen, env.bufOnFailLen, s.size⟩, none)
  else if env.failPayload then
    (⟨env.fileOnFailPayload, env.bufOnFailPayload, s.size⟩, none)
  else
    let w := p.length + lenWidth
    (⟨s.file, s.buf ++ (putBE 8 p.length ++ p), (s.size + w % w64) % w64⟩,
      some (w % w64, pos))

/-- `bufio.Writer.Flush`: moves every buffered byte to the file. -/
def flush (s : Store) : Store := ⟨s.file ++ s.buf, [], s.size⟩

/-- `store.Read(pos)`: flushes the buffer, reads `lenWidth` bytes at
`int64(pos)` to learn the length, then reads that many bytes at
`int64(pos + lenWidth)`. -/
def storeRead (s : Store) (pos : Nat) : Store × Option (List Nat) :=
  let s' := flush s
  match fileReadAt s'.file (toInt64 pos) lenWidth with
  | none => (s', none)
  | some szBytes => (s', fileReadAt s'.file (toInt64 (pos + lenWidth)) (toUint64 szBytes))

/-- `store.ReadAt(p, off)`: flush, then a raw `File.ReadAt`. -/
def storeReadAt (s : Store) (off : Int) (n : Nat) : Store × Option (List Nat) :=
  let s' := flush s
  (s', fileReadAt s'.file off n)

/-- The framed bytes `store.Append` emits for payload `p`. -/
def frame (p : List Nat) : List Nat := putBE 8 p.length ++ p

/-- The byte cost of one framed entry. -/
def frameSize (p : List Nat) : Nat := p.length + lenWidth

/-- Total byte cost of a list of framed entries. -/
def frameSum (ps : List (List Nat)) : Nat := (ps.map frameSize).sum

/-- Fault-free `store.Append` iterated over a list of payloads, also
collecting the positions each call returned. -/
def storeAppendMany (s : Store) : List (List Nat) → Store × List Nat
  | [] => (s, [])
  | p :: rest =>
    match storeAppend envOk s p with
    | (s₁, r) =>
      match storeAppendMany s₁ rest with
      | (s₂, poss) => (s₂, (r.map Prod.snd).toList ++ poss)

/-- Width of one index entry: 4-byte relative offset + 8-byte store
position. -/
def entWidth : Nat := 12

/-- Modelled from the spec: the Index component (`index.go` is not among
the sources).  A fixed-width array of (relative offset, store position)
entries backed by a memory map pre-sized to `capacity` bytes; a separate
logical size (count times entry width) tracks the real entries. -/
structure Index where
  entries : List (Nat × Nat)
  capacity : Nat
deriving DecidableEq

/-- Modelled from the spec: the Index's logical size, count times
entry width. -/
def Index.size (i : Index) : Nat := entWidth * i.entries.length

/-- Modelled from the spec: `Index.Read(n)`.  `n == -1` means the last
entry; `n >= 0` means the n-th entry (0-based); it fails if the index is
empty (for `-1`) or `n` is outside `[0, entryCount)`.  The entry read
back is a 4-byte offset and an 8-byte position. -/
def indexRead (i : Index) (n : Int) : Option (Nat × Nat) :=
  (if n = -1 then i.entries.getLast?
   else if 0 ≤ n ∧ n < (i.entries.length : Int) then i.entries[n.toNat]?
   else none).map (fun e => (e.1 % w32, e.2 % w64))

/-- Modelled from the spec: `Index.Write(off, pos)` appends one
fixed-width entry at the logical end and fails when the mapped file has
no remaining capacity for it. -/
def indexWrite (i : Index) (off pos : Nat) : Option Index :=
  if i.capacity < i.size + entWidth then none
  else some ⟨i.entries ++ [(off % w32, pos % w64)], i.capacity⟩

/-- The `api.Record` message: an opaque payload plus the engine-assigned
offset. -/
structure Record where
  Value : List Nat
  Offset : Nat
deriving DecidableEq

/-- Modelled from the spec: the opaque serialization capability of §9
(`proto.Marshal`) — a record serializes to bytes from which it can be
deserialized; the concrete layout is an 8-byte offset followed by the
payload. -/
def protoMarshal (r : Record) : List Nat := putBE 8 r.Offset ++ r.Value

/-- Modelled from the spec: `proto.Unmarshal`, the inverse of
`protoMarshal`; fails on malformed (too short) bytes. -/
def protoUnmarshal (b : List Nat) : Option Record :=
  if lenWidth ≤ b.length then some ⟨b.drop lenWidth, toUint64 (b.take lenWidth)⟩ else none

/-- The `Segment` block of `Config`: the two rotation caps. -/
structure SegmentLimits where
  MaxStoreBytes : Nat
  MaxIndexBytes : Nat
deriving DecidableEq

/-- The `Config` struct consumed by the segment. -/
structure Config where
  Segment : SegmentLimits
deriving DecidableEq

/-- The `segment` struct of segment.go. -/
structure Segment where
  store : Store
  index : Index
  baseOffset : Nat
  nextOffset : Nat
  config : Config
deriving DecidableEq

/-- `newSegment(dir, baseOffset, c)` after both files opened: the store
adopts the store file's bytes, the index adopts the entries recovered
from the index file with capacity `c.Segment.MaxIndexBytes`, and
`nextOffset` is `baseOffset` when `index.Read(-1)` fails (new index) and
`baseOffset + uint64(off) + 1` when it returns last entry `off`. -/
def newSegment (baseOffset : Nat) (c : Config) (storeFile : List Nat)
    (idxEntries : List (Nat × Nat)) : Segment :=
  let st := newStore storeFile
  let idx : Index := ⟨idxEntries, c.Segment.MaxIndexBytes⟩
  let nextOff :=
    match indexRead idx (-1) with
    | none => baseOffset
    | some (off, _) => (baseOffset + off + 1) % w64
  ⟨st, idx, baseOffset, nextOff, c⟩

/-- `segment.Append(record)`: sets `record.Offset = nextOffset`,
marshals it, appends the bytes to the store, writes the index entry
`(uint32(nextOffset - baseOffset), pos)`, increments `nextOffset` and
returns the assigned offset.  The middle component is the caller's
record as mutated by the call. -/
def segmentAppend (env : AppendEnv) (s : Segment) (r : Record) : Segment × Record × Option Nat :=
  let cur := s.nextOffset
  let record : Record := { r with Offset := cur }
  let p := protoMarshal record
  match storeAppend env s.store p with
  | (st, none) => ({ s with store := st }, record, none)
  | (st, some (_, pos)) =>
    match indexWrite s.index (sub64 s.nextOffset s.baseOffset % w32) pos with
    | none => ({ s with store := st }, record, none)
    | some idx =>
      ({ s with store := st, index := idx, nextOffset := (s.nextOffset + 1) % w64 },
        record, some cur)

/-- `segment.Read(off)`: looks up the index at
`int64(off - s.baseOffset)` (uint64 subtraction, then reinterpreted),
reads the store at the found position and unmarshals the bytes. -/
def segmentRead (s : Segment) (off : Nat) : Segment × Option Record :=
  match indexRead s.index (toInt64 (sub64 off s.baseOffset)) with
  | none => (s, none)
  | some (_, pos) =>
    match storeRead s.store pos with
    | (st, none) => ({ s with store := st }, none)
    | (st, some p) => ({ s with store := st }, protoUnmarshal p)

/-- `segment.IsMaxed()`: the store reached its byte cap or the index
reached its byte cap. -/
def isMaxed (s : Segment) : Bool :=
  decide (s.config.Segment.MaxStoreBytes ≤ s.store.size) ||
    decide (s.config.Segment.MaxIndexBytes ≤ s.index.size)

/-- `nearestMultiple(j, k)` of segment.go, including its dead second
branch (`j` is unsigned, so `j >= 0` always holds). -/
def nearestMultiple (j k : Nat) : Nat :=
  if 0 ≤ j then j / k * k else (j - k + 1) / k * k

/-- Fault-free `segment.Append` iterated over a list of records,
collecting each call's result. -/
def segmentAppendMany (s : Segment) : List Record → Segment × List (Option Nat)
  | [] => (s, [])
  | r :: rest =>
    match segmentAppend envOk s r with
    | (s₁, _, res) =>
      match segmentAppendMany s₁ rest with
      | (s₂, out) => (s₂, res :: out)

/-- Well-formedness of a segment as produced by appends: offsets are
`uint64` values, the range is `[baseOffset, nextOffset)` and the index
holds one entry per record of the range. -/
def SegmentWF (s : Segment) : Prop :=
  s.baseOffset ≤ s.nextOffset ∧ s.nextOffset < w64 ∧
    s.index.entries.length = s.nextOffset - s.baseOffset

lemma putBE_length (n v : Nat) : (putBE n v).length = n := by
  induction n generalizing v with
  | zero => rfl
  | succ k ih => simp [putBE, ih]

lemma foldl_putBE (n v a : Nat) :
    List.foldl (fun a b => a * 256 + b) a (putBE n v) = a * 256 ^ n + v % 256 ^ n := by
  induction n generalizing a with
  | zero => simp [putBE, Nat.mod_one]
  | succ k ih =>
    have hmod : v % 256 ^ (k + 1) = v % 256 ^ k + 256 ^ k * (v / 256 ^ k % 256) := by
      rw [pow_succ]
      exact Nat.mod_mul
    simp only [putBE, List.foldl_cons, ih]
    rw [hmod, pow_succ]
    ring

lemma toUint64_putBE (v : Nat) : toUint64 (putBE 8 v) = v % w64 := by
  have h := foldl_putBE 8 v 0
  simpa [toUint64, w64, show (256 : Nat) ^ 8 = 2 ^ 64 by norm_num] using h

lemma storeAppend_ok (s : Store) (p : List Nat) (h : s.size + frameSize p < w64) :
    storeAppend envOk s p =
      (⟨s.file, s.buf ++ frame p, s.size + frameSize p⟩, some (frameSize p, s.size)) := by
  have h' : s.size + (p.length + lenWidth) < w64 := by
    simpa [frameSize] using h
  have hw : (p.length + lenWidth) % w64 = p.length + lenWidth := Nat.mod_eq_of_lt (by omega)
  have hs : (s.size + (p.length + lenWidth)) % w64 = s.size + (p.length + lenWidth) :=
    Nat.mod_eq_of_lt (by omega)
  simp [storeAppend, envOk, frame, frameSize, hw, hs]

lemma frame_length (p : List Nat) : (frame p).length = frameSize p := by
  simp [frame, frameSize, putBE_length, lenWidth]
  omega

lemma frameSum_cons (p : List Nat) (ps : List (List Nat)) :
    frameSum (p :: ps) = frameSize p + frameSum ps := by
  simp [frameSum]

lemma storeWF_append (s : Store) (p : List Nat) (hwf : StoreWF s)
    (h : s.size + frameSize p < w64) :
    StoreWF (storeAppend envOk s p).1 := by
  rw [storeAppend_ok s p h]
  simp [StoreWF] at hwf ⊢
  rw [frame_length]
  omega

lemma storeAppendMany_spec :
    ∀ (ps : List (List Nat)) (s : Store), StoreWF s → s.size + frameSum ps < w64 →
      StoreWF (storeAppendMany s ps).1 ∧
      (storeAppendMany s ps).1.size = s.size + frameSum ps ∧
      (∃ r, (storeAppendMany s ps).1.file ++ (storeAppendMany s ps).1.buf
          = (s.file ++ s.buf) ++ r) ∧
      ∀ q ∈ (storeAppendMany s ps).2, s.size ≤ q := by
  intro ps
  induction ps with
  | nil =>
    intro s hwf hb
    exact ⟨hwf, by simp [storeAppendMany, frameSum], ⟨[], by simp [storeAppendMany]⟩,
      by simp [storeAppendMany]⟩
  | cons p rest ih =>
    intro s hwf hb
    rw [frameSum_cons] at hb
    have hb1 : s.size + frameSize p < w64 := by omega
    have hstep := storeAppend_ok s p hb1
    set s₁ : Store := ⟨s.file, s.buf ++ frame p, s.size + frameSize p⟩ with hs₁
    have hsize₁ : s₁.size = s.size + frameSize p := by rw [hs₁]
    have hwf₁ : StoreWF s₁ := by
      simp [StoreWF] at hwf ⊢
      rw [frame_length]
      omega
    have hb₂ : s₁.size + frameSum rest < w64 := by omega
    obtain ⟨h1, h2, ⟨r, h3⟩, h4⟩ := ih s₁ hwf₁ hb₂
    have hred : storeAppendMany s (p :: rest)
        = ((storeAppendMany s₁ rest).1, s.size :: (storeAppendMany s₁ rest).2) := by
      simp [storeAppendMany, hstep]
    rw [hred]
    refine ⟨h1, ?_, ⟨frame p ++ r, ?_⟩, ?_⟩
    · rw [h2, frameSum_cons]
      omega
    · rw [h3, hs₁]
      simp
    · intro q hq
      rcases List.mem_cons.mp hq with h | h
      · omega
      · have h5 := h4 q h
        omega

lemma fileReadAt_append (A B C : List Nat) (hA : A.length < 2 ^ 63) :
    fileReadAt (A ++ (B ++ C)) (toInt64 A.length) B.length = some B := by
  have h264 : (2 : Nat) ^ 63 < w64 := by norm_num [w64]
  have h64 : A.length % w64 = A.length := Nat.mod_eq_of_lt (lt_trans hA h264)
  have hlt : A.length % w64 < 2 ^ 63 := by rw [h64]; exact hA
  have hoff : toInt64 A.length = (A.length : Int) := by
    unfold toInt64
    rw [h64, if_pos hA]
  rw [hoff]
  have hcond : (0 : Int) ≤ (A.length : Int) ∧
      ((A.length : Int)).toNat + B.length ≤ (A ++ (B ++ C)).length := by
    constructor
    · exact Int.ofNat_nonneg _
    · simp
  simp only [fileReadAt, if_pos hcond]
  congr 1
  rw [Int.toNat_ofNat]
  rw [List.drop_left A (B ++ C)]
  exact List.take_left B C

lemma storeRead_frame (s : Store) (A p rest : List Nat)
    (heq : s.file ++ s.buf = A ++ (frame p ++ rest))
    (hA : A.length + lenWidth < 2 ^ 63) (hp : p.length < w64) :
    (storeRead s A.length).2 = some p := by
  have hA' : A.length < 2 ^ 63 := by omega
  have hflush : (flush s).file = A ++ ((putBE 8 p.length) ++ (p ++ rest)) := by
    simp [flush, heq, frame]
  have hread1 : fileReadAt (flush s).file (toInt64 A.length) lenWidth
      = some (putBE 8 p.length) := by
    rw [hflush]
    have := fileReadAt_append A (putBE 8 p.length) (p ++ rest) hA'
    rwa [putBE_length] at this
  have hlen2 : (A ++ putBE 8 p.length).length = A.length + lenWidth := by
    simp [putBE_length, lenWidth]
  have hread2 : fileReadAt (flush s).file (toInt64 (A.length + lenWidth)) p.length
      = some p := by
    have hflush2 : (flush s).file = (A ++ putBE 8 p.length) ++ (p ++ rest) := by
      rw [hflush]
      simp
    rw [hflush2, ← hlen2]
    exact fileReadAt_append (A ++ putBE 8 p.length) p rest (by rw [hlen2]; exact hA)
  simp only [storeRead, hread1]
  rw [toUint64_putBE, Nat.mod_eq_of_lt hp, hread2]

lemma storeAppend_envOk_some (s : Store) (p : List Nat) :
    storeAppend envOk s p
      = (⟨s.file, s.buf ++ (putBE 8 p.length ++ p), (s.size + (p.length + lenWidth) % w64) % w64⟩,
        some ((p.length + lenWidth) % w64, s.size)) := rfl

lemma indexRead_none (i : Index) (rel : Nat) (hrel64 : rel < w64)
    (hge : i.entries.length ≤ rel) (hm1 : rel ≠ w64 - 1) :
    indexRead i (toInt64 rel) = none := by
  unfold indexRead toInt64
  rw [Nat.mod_eq_of_lt hrel64]
  by_cases hr : rel < 2 ^ 63
  · rw [if_pos hr]
    have hne : ((rel : Nat) : Int) ≠ -1 := by omega
    rw [if_neg hne]
    have hout : ¬((0 : Int) ≤ (rel : Int) ∧ (rel : Int) < (i.entries.length : Int)) := by
      push_neg
      intro _
      exact_mod_cast Int.ofNat_le.mpr hge
    rw [if_neg hout]
    rfl
  · rw [if_neg hr]
    have hne : ((rel : Nat) : Int) - (w64 : Int) ≠ -1 := by
      intro h
      apply hm1
      omega
    rw [if_neg hne]
    have hout : ¬((0 : Int) ≤ (rel : Int) - (w64 : Int) ∧
        (rel : Int) - (w64 : Int) < (i.entries.length : Int)) := by
      push_neg
      intro h0
      exfalso
      omega
    rw [if_neg hout]
    rfl

lemma segmentAppendMany_offsets :
    ∀ (rs : List Record) (s : Segment),
      s.index.size + entWidth * rs.length ≤ s.index.capacity →
      s.nextOffset + rs.length < w64 →
      (segmentAppendMany s rs).2
        = (List.range rs.length).map (fun i => some (s.nextOffset + i)) := by
  intro rs
  induction rs with
  | nil => intro s _ _; simp [segmentAppendMany]
  | cons r rest ih =>
    intro s hcap hov
    rw [List.length_cons, Nat.mul_succ] at hcap
    rw [List.length_cons] at hov
    have hwr : ¬(s.index.capacity < s.index.size + entWidth) := by omega
    have hnext1 : (s.nextOffset + 1) % w64 = s.nextOffset + 1 := Nat.mod_eq_of_lt (by omega)
    set s₁ := (segmentAppend envOk s r).1 with hs₁
    have hsome : (segmentAppend envOk s r).2.2 = some s.nextOffset := by
      simp [segmentAppend, storeAppend_envOk_some, indexWrite, hwr]
    have hnext : s₁.nextOffset = s.nextOffset + 1 := by
      rw [hs₁]
      simp [segmentAppend, storeAppend_envOk_some, indexWrite, hwr, hnext1]
    have hentries : s₁.index.entries.length = s.index.entries.length + 1 := by
      rw [hs₁]
      simp [segmentAppend, storeAppend_envOk_some, indexWrite, hwr]
    have hcapeq : s₁.index.capacity = s.index.capacity := by
      rw [hs₁]
      simp [segmentAppend, storeAppend_envOk_some, indexWrite, hwr]
    have hcap₁ : s₁.index.size + entWidth * rest.length ≤ s₁.index.capacity := by
      simp only [Index.size, hentries, hcapeq, Nat.mul_succ]
      simp only [Index.size] at hcap
      omega
    have hov₁ : s₁.nextOffset + rest.length < w64 := by
      rw [hnext]
      omega
    have hstep := ih s₁ hcap₁ hov₁
    set rcd := (segmentAppend envOk s r).2.1 with hrcd
    have htup : segmentAppend envOk s r = (s₁, rcd, some s.nextOffset) := by
      rw [hs₁, hrcd, ← hsome]
    have hmany : segmentAppendMany s (r :: rest)
        = ((segmentAppendMany s₁ rest).1, some s.nextOffset :: (segmentAppendMany s₁ rest).2) := by
      simp [segmentAppendMany, htup]
    rw [hmany]
    simp only [hstep, hnext, List.length_cons]
    rw [List.range_succ_eq_map]
    simp only [List.map_cons, List.map_map, Nat.add_zero]
    congr 1
    apply List.map_congr_left
    intro a _
    simp only [Function.comp_apply, Option.some.injEq, Nat.succ_eq_add_one]
    omega

/-- A fault environment whose first buffered write fails, for
exercising the error path of `store.Append`. -/
def envFail : AppendEnv := ⟨true, [1], [2], false, [], []⟩

/-- A concrete segment holding one record (payload-free, offset 1) whose
offset range is `[1, 2)`: store bytes are the 8-byte length `8` followed
by the 8-byte marshalled record, and the index maps relative offset 0 to
store position 0. -/
def cexSeg : Segment :=
  ⟨⟨putBE 8 8 ++ putBE 8 1, [], 16⟩, ⟨[(0, 0)], 24⟩, 1, 2, ⟨⟨1024, 24⟩⟩⟩

/-- A fresh empty segment with base offset 0 and room for two index
entries. -/
def freshSeg : Segment := ⟨⟨[], [], 0⟩, ⟨[], 24⟩, 0, 0, ⟨⟨1024, 24⟩⟩⟩

/-- An empty segment whose index has no capacity at all, so every index
write fails. -/
def fullSeg : Segment := ⟨⟨[], [], 0⟩, ⟨[], 0⟩, 0, 0, ⟨⟨1024, 0⟩⟩⟩

/-- C2: a successful `store.Append(p)` returns `bytesWritten = len(p) + 8`
and `position` equal to the store's `size` before the call, and leaves
`size` increased by exactly `len(p) + 8`. -/
theorem store_append_postcondition (s : Store) (p : List Nat)
    (hov : s.size + (p.length + lenWidth) < w64) :
    (storeAppend envOk s p).2 = some (p.length + lenWidth, s.size) ∧
    (storeAppend envOk s p).1.size = s.size + (p.length + lenWidth) := by
  have h : s.size + frameSize p < w64 := by simpa [frameSize] using hov
  rw [storeAppend_ok s p h]
  exact ⟨by simp [frameSize], by simp [frameSize]⟩

/-- C2 witness: the postcondition evaluated on the empty store and the
one-byte payload `[42]`. -/
theorem store_append_postcondition_witness :
    (0 : Nat) + (1 + lenWidth) < w64 ∧
    ((storeAppend envOk (⟨[], [], 0⟩ : Store) [42]).2 = some ([42].length + lenWidth, 0) ∧
      (storeAppend envOk (⟨[], [], 0⟩ : Store) [42]).1.size = 0 + ([42].length + lenWidth)) :=
  ⟨by decide, store_append_postcondition ⟨[], [], 0⟩ [42] (by decide)⟩

/-- C10: whenever `store.Append` returns an error, the store's `size`
field is unchanged — every error path returns before the size update. -/
theorem store_append_error_preserves_size (env : AppendEnv) (s : Store) (p : List Nat)
    (h : (storeAppend env s p).2 = none) :
    (storeAppend env s p).1.size = s.size := by
  by_cases h1 : env.failLen
  · simp [storeAppend, h1]
  · by_cases h2 : env.failPayload
    · simp [storeAppend, h1, h2]
    · simp [storeAppend, h1, h2] at h

/-- C10 witness: a failing append on a store of size 5 leaves size 5. -/
theorem store_append_error_preserves_size_witness :
    (storeAppend envFail (⟨[], [], 5⟩ : Store) [9]).2 = none ∧
    (storeAppend envFail (⟨[], [], 5⟩ : Store) [9]).1.size = 5 :=
  ⟨by decide, store_append_error_preserves_size envFail ⟨[], [], 5⟩ [9] (by decide)⟩

/-- C9: for `k > 0`, `nearestMultiple(j, k)` equals `(j / k) * k`, the
largest multiple of `k` that is at most `j`; the second branch is dead
because `j`, being unsigned, always satisfies `j >= 0`. -/
theorem nearestMultiple_rounds_down (j k : Nat) (hk : 0 < k) :
    nearestMultiple j k = j / k * k ∧ k ∣ nearestMultiple j k ∧
      nearestMultiple j k ≤ j ∧
      ∀ m, k ∣ m → m ≤ j → m ≤ nearestMultiple j k := by
  have h0 : nearestMultiple j k = j / k * k := by simp [nearestMultiple]
  refine ⟨h0, ?_, ?_, ?_⟩
  · rw [h0]
    exact Dvd.intro_left _ rfl
  · rw [h0]
    exact Nat.div_mul_le_self j k
  · intro m hm hmj
    rw [h0]
    obtain ⟨t, rfl⟩ := hm
    have ht : t ≤ j / k := (Nat.le_div_iff_mul_le hk).mpr (by rw [Nat.mul_comm]; exact hmj)
    calc k * t ≤ k * (j / k) := Nat.mul_le_mul_left k ht
    _ = j / k * k := Nat.mul_comm k (j / k)

/-- C9 witness: `nearestMultiple 7 3 = 6`, the largest multiple of 3
below 7. -/
theorem nearestMultiple_rounds_down_witness :
    0 < 3 ∧ (nearestMultiple 7 3 = 7 / 3 * 3 ∧ 3 ∣ nearestMultiple 7 3 ∧
      nearestMultiple 7 3 ≤ 7 ∧ ∀ m, 3 ∣ m → m ≤ 7 → m ≤ nearestMultiple 7 3) :=
  ⟨by decide, nearestMultiple_rounds_down 7 3 (by decide)⟩

/-- C6: `segment.IsMaxed()` returns true exactly when the store's size
has reached `MaxStoreBytes` or the index's size has reached
`MaxIndexBytes`; either condition alone suffices. -/
theorem isMaxed_iff (s : Segment) :
    isMaxed s = true ↔
      (s.config.Segment.MaxStoreBytes ≤ s.store.size ∨
        s.config.Segment.MaxIndexBytes ≤ s.index.size) := by
  simp [isMaxed]

/-- C8: the store size invariant — `size` equals flushed file length
plus buffered bytes — is established by `newStore` from the file's
actual length and preserved by successful `Append`, by `Read` and by
`ReadAt`. -/
theorem store_size_invariant :
    (∀ f, StoreWF (newStore f)) ∧
    (∀ s p, StoreWF s → s.size + frameSize p < w64 → StoreWF (storeAppend envOk s p).1) ∧
    (∀ s pos, StoreWF s → StoreWF (storeRead s pos).1) ∧
    (∀ s off n, StoreWF s → StoreWF (storeReadAt s off n).1) := by
  have hflush : ∀ s : Store, StoreWF s → StoreWF (flush s) := by
    intro s hwf
    simp [StoreWF, flush] at hwf ⊢
    omega
  refine ⟨?_, ?_, ?_, ?_⟩
  · intro f
    simp [StoreWF, newStore]
  · exact fun s p hwf h => storeWF_append s p hwf h
  · intro s pos hwf
    have h := hflush s hwf
    unfold storeRead
    cases hm : fileReadAt (flush s).file (toInt64 pos) lenWidth <;> simp [hm, h]
  · intro s off n hwf
    have h := hflush s hwf
    simpa [storeReadAt] using h

/-- C8 witness: the invariant holds on a concrete store through
creation, append, read and readAt. -/
theorem store_size_invariant_witness :
    StoreWF (newStore [1, 2]) ∧ StoreWF (storeAppend envOk (newStore [1, 2]) [3]).1 ∧
      StoreWF (storeRead (newStore [1, 2]) 0).1 ∧
      StoreWF (storeReadAt (newStore [1, 2]) 0 1).1 :=
  ⟨store_size_invariant.1 [1, 2],
    store_size_invariant.2.1 (newStore [1, 2]) [3] (store_size_invariant.1 [1, 2])
      (by decide),
    store_size_invariant.2.2.1 (newStore [1, 2]) 0 (store_size_invariant.1 [1, 2]),
    store_size_invariant.2.2.2 (newStore [1, 2]) 0 1 (store_size_invariant.1 [1, 2])⟩

/-- C1: if `store.Append(p)` on a well-formed store succeeds returning
`(n, pos)`, then after any further sequence of successful appends,
`store.Read(pos)` returns exactly `p`, and every later append's
position is strictly greater than `pos`. -/
theorem store_append_read_roundtrip (s : Store) (p : List Nat) (ps : List (List Nat))
    (hwf : StoreWF s) (hb : s.size + frameSize p + frameSum ps < 2 ^ 63) :
    ∀ n pos, (storeAppend envOk s p).2 = some (n, pos) →
      (storeRead (storeAppendMany (storeAppend envOk s p).1 ps).1 pos).2 = some p ∧
      ∀ q ∈ (storeAppendMany (storeAppend envOk s p).1 ps).2, pos < q := by
  intro n pos hsome
  have h2w : (2 : Nat) ^ 63 < w64 := by norm_num [w64]
  have hfs : frameSize p = p.length + lenWidth := rfl
  have hlw : lenWidth = 8 := rfl
  have hb1 : s.size + frameSize p < w64 := by omega
  have hok := storeAppend_ok s p hb1
  rw [hok] at hsome
  simp only [Option.some.injEq, Prod.mk.injEq] at hsome
  obtain ⟨hn, hpos⟩ := hsome
  set s₁ : Store := ⟨s.file, s.buf ++ frame p, s.size + frameSize p⟩ with hs₁
  have hwf₁ : StoreWF s₁ := by
    simp [StoreWF] at hwf ⊢
    rw [frame_length]
    omega
  have hb₂ : s₁.size + frameSum ps < w64 := by
    have : s₁.size = s.size + frameSize p := by rw [hs₁]
    omega
  obtain ⟨hwf₂, hsz₂, ⟨r, hcat⟩, hpos₂⟩ := storeAppendMany_spec ps s₁ hwf₁ hb₂
  have hok1 : (storeAppend envOk s p).1 = s₁ := by rw [hok]
  rw [hok1]
  have hA : (s.file ++ s.buf).length = s.size := by
    simp [StoreWF] at hwf
    simp [hwf]
  have heq : (storeAppendMany s₁ ps).1.file ++ (storeAppendMany s₁ ps).1.buf
      = (s.file ++ s.buf) ++ (frame p ++ r) := by
    rw [hcat, hs₁]
    simp
  constructor
  · have hread := storeRead_frame (storeAppendMany s₁ ps).1 (s.file ++ s.buf) p r heq
      (by rw [hA]; omega) (by omega)
    rw [hA] at hread
    rw [← hpos]
    exact hread
  · intro q hq
    have := hpos₂ q hq
    have hsz₁ : s₁.size = s.size + frameSize p := by rw [hs₁]
    omega

/-- C1 witness: append `[5]` to the empty store, then `[6]`; reading
position 0 still returns `[5]` and the later append's position is
greater. -/
theorem store_append_read_roundtrip_witness :
    StoreWF (newStore []) ∧
    ((storeRead (storeAppendMany (storeAppend envOk (newStore []) [5]).1 [[6]]).1 0).2
        = some [5] ∧
      ∀ q ∈ (storeAppendMany (storeAppend envOk (newStore []) [5]).1 [[6]]).2, 0 < q) :=
  ⟨by simp [StoreWF, newStore],
    store_append_read_roundtrip (newStore []) [5] [[6]] (by simp [StoreWF, newStore])
      (by decide) 9 0 (by decide)⟩

lemma getLast?_mem_pair {l : List (Nat × Nat)} {a : Nat × Nat} (h : l.getLast? = some a) :
    a ∈ l := by
  have hx : a ∈ l.getLast? := h
  obtain ⟨hne, heq⟩ := List.mem_getLast?_eq_getLast hx
  rw [heq]
  exact List.getLast_mem hne

/-- C3: every successful `segment.Append` sets the record's `Offset` to
the pre-call `nextOffset`, returns that value, and bumps `nextOffset` by
one (in `uint64` arithmetic); consequently, on a fresh segment with base
offset 0 and enough index capacity, consecutive appends return exactly
`0, 1, 2, …` with no gaps or repeats. -/
theorem segment_append_assigns_offsets :
    (∀ env s r s' rcd off, segmentAppend env s r = (s', rcd, some off) →
      off = s.nextOffset ∧ rcd.Offset = s.nextOffset ∧
        s'.nextOffset = (s.nextOffset + 1) % w64) ∧
    (∀ s rs, s.baseOffset = 0 → s.nextOffset = 0 → s.index.entries = [] →
      entWidth * rs.length ≤ s.index.capacity → rs.length < w64 →
      (segmentAppendMany s rs).2 = (List.range rs.length).map some) := by
  constructor
  · intro env s r s' rcd off h
    rcases hst : storeAppend env s.store (protoMarshal { r with Offset := s.nextOffset })
      with ⟨st, ro⟩
    cases ro with
    | none =>
      have e1 : (segmentAppend env s r).2.2 = none := by simp [segmentAppend, hst]
      rw [h] at e1
      simp at e1
    | some v =>
      obtain ⟨m, pos⟩ := v
      rcases hiw : indexWrite s.index (sub64 s.nextOffset s.baseOffset % w32) pos with _ | idx
      · have e1 : (segmentAppend env s r).2.2 = none := by simp [segmentAppend, hst, hiw]
        rw [h] at e1
        simp at e1
      · have e1 : (segmentAppend env s r).2.2 = some s.nextOffset := by
          simp [segmentAppend, hst, hiw]
        have e2 : (segmentAppend env s r).2.1 = { r with Offset := s.nextOffset } := by
          simp [segmentAppend, hst, hiw]
        have e3 : (segmentAppend env s r).1.nextOffset = (s.nextOffset + 1) % w64 := by
          simp [segmentAppend, hst, hiw]
        rw [h] at e1 e2 e3
        simp only [Option.some.injEq] at e1
        simp only at e2 e3
        refine ⟨e1, ?_, e3⟩
        rw [e2]
  · intro s rs hbase hnext hentries hcap hlen
    have hc : s.index.size + entWidth * rs.length ≤ s.index.capacity := by
      simp [Index.size, hentries]
      exact hcap
    have ho : s.nextOffset + rs.length < w64 := by
      rw [hnext]
      simpa using hlen
    have h := segmentAppendMany_offsets rs s hc ho
    rw [h, hnext]
    simp

/-- C3 witness: two appends on the fresh base-0 segment return
`[some 0, some 1]`. -/
theorem segment_append_assigns_offsets_witness :
    entWidth * 2 ≤ freshSeg.index.capacity ∧
    (segmentAppendMany freshSeg [⟨[1], 0⟩, ⟨[2], 0⟩]).2 = (List.range 2).map some :=
  ⟨by decide,
    segment_append_assigns_offsets.2 freshSeg [⟨[1], 0⟩, ⟨[2], 0⟩] rfl rfl rfl
      (by decide) (by decide)⟩

/-- C4 counterexample: on the segment `cexSeg` with range `[1, 2)`, the
offset 0 lies strictly below the base offset, yet `segment.Read(0)` does
not fail: the `uint64` wrap makes the relative offset `-1`, which the
index resolves to its last entry, so the last record is returned. -/
theorem segment_read_below_base_returns_record :
    0 < cexSeg.baseOffset ∧ (segmentRead cexSeg 0).2 = some ⟨[], 1⟩ := by
  constructor
  · decide
  · rfl

/-- C4 (amended): for a well-formed segment, reading any offset outside
`[baseOffset, nextOffset)` fails, except when the wrapped relative
offset `off - baseOffset` equals `2^64 - 1` (that is, `off =
baseOffset - 1`, or `off = 2^64 - 1` with base 0), which the index
interprets as `-1` ("last entry"). -/
theorem segment_read_out_of_range (s : Segment) (off : Nat)
    (hwf : SegmentWF s) (hoff : off < w64)
    (hout : off < s.baseOffset ∨ s.nextOffset ≤ off)
    (hm1 : sub64 off s.baseOffset ≠ w64 - 1) :
    (segmentRead s off).2 = none := by
  obtain ⟨hbn, hnw, hcount⟩ := hwf
  have hbw : s.baseOffset < w64 := by omega
  have hoffm : off % w64 = off := Nat.mod_eq_of_lt hoff
  have hbm : s.baseOffset % w64 = s.baseOffset := Nat.mod_eq_of_lt hbw
  have hrel64 : sub64 off s.baseOffset < w64 := Nat.mod_lt _ (by norm_num [w64])
  have hge : s.index.entries.length ≤ sub64 off s.baseOffset := by
    rw [hcount]
    unfold sub64
    rw [hoffm, hbm]
    rcases hout with hlt | hge2
    · have hmm : (off + (w64 - s.baseOffset)) % w64 = off + (w64 - s.baseOffset) :=
        Nat.mod_eq_of_lt (by omega)
      rw [hmm]
      omega
    · have h1 : off + (w64 - s.baseOffset) = (off - s.baseOffset) + w64 := by omega
      rw [h1, Nat.add_mod_right]
      rw [Nat.mod_eq_of_lt (by omega : off - s.baseOffset < w64)]
      omega
  have hnone := indexRead_none s.index _ hrel64 hge hm1
  simp [segmentRead, hnone]

/-- C4 witness for the amended statement: reading offset 5, above the
range `[1, 2)` of `cexSeg`, fails. -/
theorem segment_read_out_of_range_witness :
    SegmentWF cexSeg ∧ (segmentRead cexSeg 5).2 = none :=
  ⟨⟨by decide, by decide, by decide⟩,
    segment_read_out_of_range cexSeg 5 ⟨by decide, by decide, by decide⟩ (by decide)
      (Or.inr (by decide)) (by decide)⟩

/-- C5: when the store append succeeds but the index write fails for
lack of capacity, `segment.Append` returns an error, `nextOffset` and
the index are unchanged, and the store's size remains increased by the
full appended frame — the store entry is left behind with no index
entry. -/
theorem segment_append_store_entry_left_behind (s : Segment) (r : Record)
    (hidx : s.index.capacity < s.index.size + entWidth)
    (hov : s.store.size + frameSize (protoMarshal { r with Offset := s.nextOffset }) < w64) :
    (segmentAppend envOk s r).2.2 = none ∧
    (segmentAppend envOk s r).1.nextOffset = s.nextOffset ∧
    (segmentAppend envOk s r).1.index = s.index ∧
    (segmentAppend envOk s r).1.store.size
        = s.store.size + frameSize (protoMarshal { r with Offset := s.nextOffset }) := by
  have hok := storeAppend_ok s.store (protoMarshal { r with Offset := s.nextOffset }) hov
  refine ⟨?_, ?_, ?_, ?_⟩ <;> simp [segmentAppend, hok, indexWrite, hidx]

/-- C5 witness: on the zero-capacity-index segment, one append errors
but grows the store size by the frame of the marshalled record. -/
theorem segment_append_store_entry_left_behind_witness :
    fullSeg.index.capacity < fullSeg.index.size + entWidth ∧
    ((segmentAppend envOk fullSeg ⟨[7], 9⟩).2.2 = none ∧
      (segmentAppend envOk fullSeg ⟨[7], 9⟩).1.nextOffset = fullSeg.nextOffset ∧
      (segmentAppend envOk fullSeg ⟨[7], 9⟩).1.index = fullSeg.index ∧
      (segmentAppend envOk fullSeg ⟨[7], 9⟩).1.store.size
          = fullSeg.store.size
            + frameSize (protoMarshal { (⟨[7], 9⟩ : Record) with Offset := fullSeg.nextOffset })) :=
  ⟨by decide, segment_append_store_entry_left_behind fullSeg ⟨[7], 9⟩ (by decide) (by decide)⟩

/-- C7: `newSegment` recovers `nextOffset` as `baseOffset` when the
index is empty (its `Read(-1)` fails) and as
`baseOffset + lastRelativeOffset + 1` otherwise; in both cases
`nextOffset ≥ baseOffset` holds on the returned segment. -/
theorem newSegment_recovers_nextOffset (base : Nat) (c : Config) (sf : List Nat)
    (es : List (Nat × Nat))
    (hov : ∀ e ∈ es, base + e.1 % w32 + 1 < w64) :
    (es = [] → (newSegment base c sf es).nextOffset = base) ∧
    (∀ e, es.getLast? = some e →
      (newSegment base c sf es).nextOffset = base + e.1 % w32 + 1) ∧
    base ≤ (newSegment base c sf es).nextOffset := by
  rcases hes : es.getLast? with _ | e
  · have hnil : es = [] := List.getLast?_eq_none_iff.mp hes
    subst hnil
    refine ⟨fun _ => by simp [newSegment, indexRead], fun e he => by simp at he, ?_⟩
    simp [newSegment, indexRead]
  · have hne : es ≠ [] := by
      intro hcontra
      rw [hcontra] at hes
      simp at hes
    have hread : indexRead ⟨es, c.Segment.MaxIndexBytes⟩ (-1) = some (e.1 % w32, e.2 % w64) := by
      simp [indexRead, hes]
    have hnextval : (newSegment base c sf es).nextOffset = (base + e.1 % w32 + 1) % w64 := by
      simp [newSegment, hread]
    have hovl := hov e (getLast?_mem_pair hes)
    have hmod : (base + e.1 % w32 + 1) % w64 = base + e.1 % w32 + 1 := Nat.mod_eq_of_lt hovl
    refine ⟨fun h => absurd h hne, ?_, ?_⟩
    · intro e' he'
      have he2 : e' = e := (Option.some.inj he').symm
      rw [he2, hnextval, hmod]
    · rw [hnextval, hmod]
      omega

/-- C7 witness: recovering a segment whose index last entry has relative
offset 3 yields `nextOffset = 0 + 3 + 1 = 4 ≥ 0`. -/
theorem newSegment_recovers_nextOffset_witness :
    (∀ e ∈ ([(3, 0)] : List (Nat × Nat)), 0 + e.1 % w32 + 1 < w64) ∧
    ((∀ e, ([(3, 0)] : List (Nat × Nat)).getLast? = some e →
        (newSegment 0 ⟨⟨1024, 24⟩⟩ [] [(3, 0)]).nextOffset = 0 + e.1 % w32 + 1) ∧
      0 ≤ (newSegment 0 ⟨⟨1024, 24⟩⟩ [] [(3, 0)]).nextOffset) :=
  ⟨by decide, (newSegment_recovers_nextOffset 0 ⟨⟨1024, 24⟩⟩ [] [(3, 0)] (by decide)).2⟩
